import Mathlib

/-!
Verification of the phonetic name-confusion scoring pipeline (src/data2.js).

Modelling conventions:
* JavaScript numbers are modelled as exact rationals (`ℚ`).
* The JavaScript `NaN` value produced by `0/0` is modelled by `Option ℚ`,
  with `none` standing for NaN; NaN propagation through arithmetic is
  modelled by monadic `Option` bind.  At every division site of the source
  the numerator is provably `0` whenever the denominator is `0`, so `none`
  exactly at a zero denominator is faithful to the JavaScript semantics.
* External collaborators are parameters: `jw` models
  `natural.JaroWinklerDistance` and `enc` models `doubleMetaphone`
  (returning the primary/secondary code pair).  `natural.LevenshteinDistance`
  (all edit costs 1) is embedded concretely as `levenshtein`.
* Member values are natural numbers (`ℕ`), following the data model's
  "non-negative integer" contract for `value`.
-/

namespace Confusion

/-- One parsed input record (src/data2.js lines 21-27): a `name`, a
non-negative integer `value`, and the complexity computed once at ingestion. -/
structure Entry where
  name : String
  value : ℕ
  complexity : ℚ
deriving DecidableEq

/-- Character class of the regex `[aeiouy]` with the `i` flag
(src/data2.js line 9). -/
def isVowel (c : Char) : Bool :=
  c.toLower == 'a' || c.toLower == 'e' || c.toLower == 'i' ||
  c.toLower == 'o' || c.toLower == 'u' || c.toLower == 'y'

/-- Number of maximal vowel runs, i.e. the number of matches of the global
regex `/[aeiouy]+/gi` (src/data2.js line 9).  The boolean argument records
whether the previous character was a vowel (we are inside a run). -/
def countVowelRuns : Bool → List Char → ℕ
  | _, [] => 0
  | inRun, c :: cs =>
    if isVowel c then (if inRun then 0 else 1) + countVowelRuns true cs
    else countVowelRuns false cs

/-- The `length` factor of `calculateComplexity` (src/data2.js line 8):
`Math.min(1, name.length / 10)`. -/
def lengthFactor (name : String) : ℚ :=
  min 1 ((name.length : ℚ) / 10)

/-- The `syllableCount` factor of `calculateComplexity` (src/data2.js line 9):
`(name.match(/[aeiouy]+/gi) || []).length / 5`. -/
def syllableFactor (name : String) : ℚ :=
  (countVowelRuns false name.data : ℚ) / 5

/-- Test of the regex `/[a-z]/` against the lower-cased character
(src/data2.js line 10). -/
def isStandardChar (c : Char) : Bool :=
  'a' ≤ c.toLower && c.toLower ≤ 'z'

/-- The `nonStandardChars` factor of `calculateComplexity`
(src/data2.js line 10): count of characters whose lower-cased form is
outside `a`-`z`, divided by 3.  Not clamped. -/
def nonStandardFactor (name : String) : ℚ :=
  ((name.data.filter (fun c => !(isStandardChar c))).length : ℚ) / 3

/-- The `orthoNeighbors` factor of `calculateComplexity`
(src/data2.js line 11): `1 - natural.JaroWinklerDistance(name, 'standard')`,
with the external Jaro-Winkler collaborator as parameter `jw`. -/
def orthoNeighborFactor (jw : String → String → ℚ) (name : String) : ℚ :=
  1 - jw name "standard"

/-- The reserved `phoneticDensity` factor (src/data2.js line 12): always 0. -/
def phoneticDensityFactor : ℚ := 0

/-- Embeds `calculateComplexity` (src/data2.js lines 6-15): the unclamped sum
of the five factors (`Object.values(factors).reduce((a, b) => a + b, 0)`). -/
def calculateComplexity (jw : String → String → ℚ) (name : String) : ℚ :=
  lengthFactor name + syllableFactor name + nonStandardFactor name +
    orthoNeighborFactor jw name + phoneticDensityFactor

/-- Helper realizing the textbook Levenshtein recurrence for a fixed head
character `x`: given `levxs = levenshtein xs` and `tailLen = xs.length`,
`levAux levxs x tailLen ys` is the distance from `x :: xs` to `ys`.  This
nested formulation keeps both recursions structural. -/
def levAux (levxs : List Char → ℕ) (x : Char) (tailLen : ℕ) :
    List Char → ℕ
  | [] => tailLen + 1
  | y :: ys =>
    if x = y then levxs ys
    else 1 + min (levAux levxs x tailLen ys) (min (levxs (y :: ys)) (levxs ys))

/-- Levenshtein edit distance with unit costs, the contract of
`natural.LevenshteinDistance` (external collaborator, default costs):
deleting the head, inserting the other head, or substituting, each at
cost 1. -/
def levenshtein : List Char → List Char → ℕ
  | [], ys => ys.length
  | x :: xs, ys => levAux (levenshtein xs) x xs.length ys

/-- Levenshtein distance on strings. -/
def levDist (a b : String) : ℕ :=
  levenshtein a.data b.data

/-- All unordered pairs `(i, j)` with `i < j`, enumerated in the order of the
nested loops of `calculateOrthographicDiversity` (src/data2.js lines 77-83). -/
def allPairs {α : Type} : List α → List (α × α)
  | [] => []
  | x :: xs => (xs.map fun y => (x, y)) ++ allPairs xs

/-- One term of the diversity sum (src/data2.js lines 79-80):
`LevenshteinDistance(a, b) / Math.max(a.length, b.length)`.  The denominator
is 0 exactly when both strings are empty, in which case the numerator is
also 0 and JavaScript produces NaN (`none`). -/
def normPairDist (a b : String) : Option ℚ :=
  if max a.length b.length = 0 then none
  else some ((levDist a b : ℚ) / (max a.length b.length : ℚ))

/-- The `totalDiff` accumulation loop of `calculateOrthographicDiversity`
(src/data2.js lines 74-83); a NaN term poisons the whole sum. -/
def sumNormDists : List (String × String) → Option ℚ
  | [] => some 0
  | p :: ps => do
    let d ← normPairDist p.1 p.2
    let rest ← sumNormDists ps
    pure (d + rest)

/-- Embeds `calculateOrthographicDiversity` (src/data2.js lines 72-86):
average normalized Levenshtein distance over all unordered pairs of the
first 5 names; `0` when there are fewer than 2 samples. -/
def calculateOrthographicDiversity (names : List String) : Option ℚ :=
  let samples := names.take 5
  let pairs := allPairs samples
  if pairs.length = 0 then some 0
  else (sumNormDists pairs).map (fun t => t / (pairs.length : ℚ))

/-- Embeds `Math.max(...)` over a spread array of naturals (src/data2.js
line 61/106).  Only applied to non-empty lists in the program (groups have
at least 2 members); the `[]` case is an unreachable default. -/
def maxNat : List ℕ → ℕ
  | [] => 0
  | v :: vs => vs.foldl max v

/-- Embeds `Math.min(...)` over a spread array of naturals (src/data2.js
line 61/106); the `[]` case is an unreachable default. -/
def minNat : List ℕ → ℕ
  | [] => 0
  | v :: vs => vs.foldl min v

/-- Embeds `Math.max(...complexities)` (src/data2.js line 60); the `[]` case
is an unreachable default. -/
def maxQ : List ℚ → ℚ
  | [] => 0
  | c :: cs => cs.foldl max c

/-- Embeds `calculateConfusionScore` (src/data2.js lines 53-70).  The
`valueSpread` factor `1 - min(values)/max(values)` is NaN (`none`) when all
values are 0, and NaN propagates into the weighted sum. -/
def calculateConfusionScore (g : List Entry) : Option ℚ :=
  let names := g.map (·.name)
  let complexities := g.map (·.complexity)
  let values := g.map (·.value)
  let sizePenalty : ℚ := min 1 ((names.length : ℚ) / 5)
  let complexityFactor : ℚ := min 1 (maxQ complexities)
  do
    let valueSpread ←
      if maxNat values = 0 then none
      else some (1 - (minNat values : ℚ) / (maxNat values : ℚ))
    let orthoDiversity ← calculateOrthographicDiversity names
    pure (sizePenalty * 0.3 + complexityFactor * 0.4 +
      valueSpread * 0.2 + orthoDiversity * 0.1)

/-- A finalized confusion cluster (src/data2.js lines 42-49). -/
structure Cluster where
  names : List String
  entries : List Entry
  phoneticCode : String
  avgValue : ℚ
  avgComplexity : ℚ
  confusionScore : Option ℚ
deriving DecidableEq

/-- Builds one cluster record from a bucket (src/data2.js lines 42-49). -/
def mkCluster (code : String) (group : List Entry) : Cluster :=
  { names := group.map (·.name)
    entries := group
    phoneticCode := code
    avgValue := ((group.map (·.value)).sum : ℚ) / (group.length : ℚ)
    avgComplexity := (group.map (·.complexity)).sum / (group.length : ℚ)
    confusionScore := calculateConfusionScore group }

/-- Embeds the cluster-building loop (src/data2.js lines 39-51): iterate the
bucket map in order, keeping only buckets with more than one member. -/
def clusters : List (String × List Entry) → List Cluster
  | [] => []
  | (code, group) :: rest =>
    if 1 < group.length then mkCluster code group :: clusters rest
    else clusters rest

/-- Embeds the bucket key `doubleMetaphone(name).join('|')`
(src/data2.js line 33), with the encoder as parameter `enc`; the separator
is present even when the secondary code is empty. -/
def phoneticKey (enc : String → String × String) (name : String) : String :=
  (enc name).1 ++ "|" ++ (enc name).2

/-- Appends an entry to the bucket for key `k` of an insertion-ordered
association list, creating the bucket at the end when absent — the JavaScript
`Map` update of src/data2.js lines 34-35. -/
def insertBucket (k : String) (e : Entry) :
    List (String × List Entry) → List (String × List Entry)
  | [] => [(k, [e])]
  | (q, g) :: rest =>
    if q = k then (q, g ++ [e]) :: rest
    else (q, g) :: insertBucket k e rest

/-- Embeds the phonetic index construction (src/data2.js lines 31-36): a
`Map` with insertion-ordered keys, represented as an association list built
left to right. -/
def phoneticMap (enc : String → String × String) (entries : List Entry) :
    List (String × List Entry) :=
  entries.foldl (fun m e => insertBucket (phoneticKey enc e.name) e m) []

/-- Sort key of the ranking comparator (src/data2.js line 89).  The program
only sorts clusters whose score is a defined number; `none` (NaN) would make
the JavaScript comparator inconsistent, so the model's `getD 0` default is
outside the faithful domain and theorems about `rank` assume defined scores. -/
def scoreKey (c : Cluster) : ℚ :=
  c.confusionScore.getD 0

/-- Embeds `clusters.sort((a, b) => b.confusionScore - a.confusionScore)`
(src/data2.js line 89): a stable sort, descending by score. -/
def rank (cs : List Cluster) : List Cluster :=
  cs.mergeSort (fun a b => decide (scoreKey b ≤ scoreKey a))

/-- Modelled from the spec (section 4.2): the first-occurrence order of a list
of keys, used to state the bucket-ordering guarantee of the indexer. -/
def firstOccurrences (ks : List String) : List String :=
  ks.foldl (fun acc k => if k ∈ acc then acc else acc ++ [k]) []

/-! Concrete instantiations of the external collaborators and sample inputs,
used to evaluate the theorems on closed inputs. -/

/-- A trivial stand-in for the Jaro-Winkler collaborator: constantly 0,
inside the contract range `[0, 1]`. -/
def jwConst : String → String → ℚ := fun _ _ => 0

/-- A trivial stand-in for the double-metaphone collaborator: primary code is
the name itself, secondary code is empty. -/
def encId : String → String × String := fun n => (n, "")

/-- A sample record with the complexity computed at ingestion, as the
pipeline does (src/data2.js line 26). -/
def mkEntry (n : String) (v : ℕ) : Entry :=
  ⟨n, v, calculateComplexity jwConst n⟩

/-- A 2-member group whose values are all 0: the degenerate input for the
`valueSpread` division. -/
def zeroGroup : List Entry := [mkEntry "ab" 0, mkEntry "ad" 0]

/-- A 2-member group with a positive maximum value. -/
def sampleGroup : List Entry := [mkEntry "ab" 1, mkEntry "ad" 2]

/-- A 7-member group. -/
def permGroupA : List Entry :=
  [mkEntry "a" 1, mkEntry "b" 2, mkEntry "c" 3, mkEntry "d" 4, mkEntry "e" 5,
    mkEntry "f" 6, mkEntry "g" 7]

/-- The same group with the two members beyond the first-5 prefix swapped. -/
def permGroupB : List Entry :=
  [mkEntry "a" 1, mkEntry "b" 2, mkEntry "c" 3, mkEntry "d" 4, mkEntry "e" 5,
    mkEntry "g" 7, mkEntry "f" 6]

/-- A sample bucket map with one singleton bucket and one 2-member bucket. -/
def sampleBuckets : List (String × List Entry) :=
  [("k|", [mkEntry "k" 9]), ("ab|", sampleGroup)]

/-- A sample record list with a phonetic collision under `encId`. -/
def sampleEntries : List Entry :=
  [mkEntry "ab" 1, mkEntry "ad" 2, mkEntry "ab" 3]

/-! Helper lemmas about the Levenshtein distance. -/

theorem levAux_le (levxs : List Char → ℕ) (x : Char) (xs : List Char)
    (h : ∀ ys, levxs ys ≤ max xs.length ys.length) :
    ∀ ys, levAux levxs x xs.length ys ≤ max (xs.length + 1) ys.length := by
  intro ys
  induction ys with
  | nil => simp [levAux]
  | cons y ys ih =>
    simp only [levAux, List.length_cons]
    by_cases hxy : x = y
    · simp only [hxy, if_pos rfl]
      exact le_trans (h ys) (by omega)
    · rw [if_neg hxy]
      have h3 := h ys
      omega

theorem levenshtein_le (xs ys : List Char) :
    levenshtein xs ys ≤ max xs.length ys.length := by
  induction xs generalizing ys with
  | nil => simp [levenshtein]
  | cons x xs ih =>
    simpa [levenshtein] using levAux_le (levenshtein xs) x xs ih ys

theorem levDist_le (a b : String) : levDist a b ≤ max a.length b.length :=
  levenshtein_le a.data b.data

/-! Helper lemmas about folded maxima and minima (the `Math.max`/`Math.min`
spreads of the source). -/

theorem le_foldl_max {α : Type} [LinearOrder α] (l : List α) (a : α) :
    a ≤ l.foldl max a := by
  induction l generalizing a with
  | nil => exact le_refl a
  | cons b l ih => exact le_trans (le_max_left a b) (ih (max a b))

theorem foldl_max_le_mem {α : Type} [LinearOrder α] (l : List α) (a : α) :
    ∀ x ∈ l, x ≤ l.foldl max a := by
  induction l generalizing a with
  | nil => intro x hx; cases hx
  | cons b l ih =>
    intro x hx
    rcases List.mem_cons.mp hx with h | h
    · subst h
      exact le_trans (le_max_right a x) (le_foldl_max l (max a x))
    · exact ih (max a b) x h

theorem foldl_max_mem {α : Type} [LinearOrder α] (l : List α) (a : α) :
    l.foldl max a = a ∨ l.foldl max a ∈ l := by
  induction l generalizing a with
  | nil => exact Or.inl rfl
  | cons b l ih =>
    rcases ih (max a b) with h | h
    · rcases max_choice a b with h2 | h2
      · exact Or.inl (h.trans h2)
      · exact Or.inr (List.mem_cons.mpr (Or.inl (h.trans h2)))
    · exact Or.inr (List.mem_cons_of_mem b h)

theorem foldl_min_ge {α : Type} [LinearOrder α] (l : List α) (a : α) :
    l.foldl min a ≤ a := by
  induction l generalizing a with
  | nil => exact le_refl a
  | cons b l ih => exact le_trans (ih (min a b)) (min_le_left a b)

theorem foldl_min_le_mem {α : Type} [LinearOrder α] (l : List α) (a : α) :
    ∀ x ∈ l, l.foldl min a ≤ x := by
  induction l generalizing a with
  | nil => intro x hx; cases hx
  | cons b l ih =>
    intro x hx
    rcases List.mem_cons.mp hx with h | h
    · subst h
      exact le_trans (foldl_min_ge l (min a x)) (min_le_right a x)
    · exact ih (min a b) x h

theorem foldl_min_mem {α : Type} [LinearOrder α] (l : List α) (a : α) :
    l.foldl min a = a ∨ l.foldl min a ∈ l := by
  induction l generalizing a with
  | nil => exact Or.inl rfl
  | cons b l ih =>
    rcases ih (min a b) with h | h
    · rcases min_choice a b with h2 | h2
      · exact Or.inl (h.trans h2)
      · exact Or.inr (List.mem_cons.mpr (Or.inl (h.trans h2)))
    · exact Or.inr (List.mem_cons_of_mem b h)

theorem maxQ_mem {l : List ℚ} (h : l ≠ []) : maxQ l ∈ l := by
  match l, h with
  | c :: cs, _ =>
    rcases foldl_max_mem cs c with h2 | h2
    · exact List.mem_cons.mpr (Or.inl h2)
    · exact List.mem_cons_of_mem c h2

theorem le_maxQ {l : List ℚ} : ∀ x ∈ l, x ≤ maxQ l := by
  match l with
  | [] => intro x hx; cases hx
  | c :: cs =>
    intro x hx
    rcases List.mem_cons.mp hx with h | h
    · exact h ▸ le_foldl_max cs c
    · exact foldl_max_le_mem cs c x h

theorem maxQ_perm {l₁ l₂ : List ℚ} (p : l₁.Perm l₂) : maxQ l₁ = maxQ l₂ := by
  match l₁, l₂, p.length_eq with
  | [], [], _ => rfl
  | a :: l₁, b :: l₂, _ =>
    exact le_antisymm
      (le_maxQ _ (p.mem_iff.mp (maxQ_mem (List.cons_ne_nil a l₁))))
      (le_maxQ _ (p.mem_iff.mpr (maxQ_mem (List.cons_ne_nil b l₂))))

theorem maxNat_mem {l : List ℕ} (h : l ≠ []) : maxNat l ∈ l := by
  match l, h with
  | v :: vs, _ =>
    rcases foldl_max_mem vs v with h2 | h2
    · exact List.mem_cons.mpr (Or.inl h2)
    · exact List.mem_cons_of_mem v h2

theorem le_maxNat {l : List ℕ} : ∀ x ∈ l, x ≤ maxNat l := by
  match l with
  | [] => intro x hx; cases hx
  | v :: vs =>
    intro x hx
    rcases List.mem_cons.mp hx with h | h
    · exact h ▸ le_foldl_max vs v
    · exact foldl_max_le_mem vs v x h

theorem maxNat_perm {l₁ l₂ : List ℕ} (p : l₁.Perm l₂) :
    maxNat l₁ = maxNat l₂ := by
  match l₁, l₂, p.length_eq with
  | [], [], _ => rfl
  | a :: l₁, b :: l₂, _ =>
    exact le_antisymm
      (le_maxNat _ (p.mem_iff.mp (maxNat_mem (List.cons_ne_nil a l₁))))
      (le_maxNat _ (p.mem_iff.mpr (maxNat_mem (List.cons_ne_nil b l₂))))

theorem minNat_mem {l : List ℕ} (h : l ≠ []) : minNat l ∈ l := by
  match l, h with
  | v :: vs, _ =>
    rcases foldl_min_mem vs v with h2 | h2
    · exact List.mem_cons.mpr (Or.inl h2)
    · exact List.mem_cons_of_mem v h2

theorem minNat_le {l : List ℕ} : ∀ x ∈ l, minNat l ≤ x := by
  match l with
  | [] => intro x hx; cases hx
  | v :: vs =>
    intro x hx
    rcases List.mem_cons.mp hx with h | h
    · exact h ▸ foldl_min_ge vs v
    · exact foldl_min_le_mem vs v x h

theorem minNat_perm {l₁ l₂ : List ℕ} (p : l₁.Perm l₂) :
    minNat l₁ = minNat l₂ := by
  match l₁, l₂, p.length_eq with
  | [], [], _ => rfl
  | a :: l₁, b :: l₂, _ =>
    exact le_antisymm
      (minNat_le _ (p.mem_iff.mpr (minNat_mem (List.cons_ne_nil b l₂))))
      (minNat_le _ (p.mem_iff.mp (minNat_mem (List.cons_ne_nil a l₁))))

theorem minNat_le_maxNat {l : List ℕ} (h : l ≠ []) : minNat l ≤ maxNat l :=
  le_trans (minNat_le (maxNat l) (maxNat_mem h)) (le_refl _)

/-! Helper lemmas about the orthographic-diversity estimator. -/

theorem strLength_pos {s : String} (h : s ≠ "") : 0 < s.length := by
  rcases s with ⟨data⟩
  match data with
  | [] => exact absurd rfl h
  | c :: cs => simp [String.length]

theorem mem_allPairs {α : Type} {l : List α} {p : α × α}
    (hp : p ∈ allPairs l) : p.1 ∈ l ∧ p.2 ∈ l := by
  induction l with
  | nil => cases hp
  | cons x xs ih =>
    rcases List.mem_append.mp hp with h | h
    · rcases List.mem_map.mp h with ⟨y, hy, hxy⟩
      subst hxy
      exact ⟨List.mem_cons_self x xs, List.mem_cons_of_mem x hy⟩
    · exact ⟨List.mem_cons_of_mem x (ih h).1, List.mem_cons_of_mem x (ih h).2⟩

theorem normPairDist_bounds (a b : String) (h : 0 < max a.length b.length) :
    ∃ q, normPairDist a b = some q ∧ 0 ≤ q ∧ q ≤ 1 := by
  refine ⟨(levDist a b : ℚ) / (max a.length b.length : ℚ), ?_, ?_, ?_⟩
  · simp [normPairDist, Nat.pos_iff_ne_zero.mp h]
  · positivity
  · rw [div_le_one (by exact_mod_cast h)]
    exact_mod_cast levDist_le a b

theorem sumNormDists_bounds (ps : List (String × String))
    (h : ∀ p ∈ ps, 0 < max p.1.length p.2.length) :
    ∃ t, sumNormDists ps = some t ∧ 0 ≤ t ∧ t ≤ (ps.length : ℚ) := by
  induction ps with
  | nil => exact ⟨0, rfl, le_refl 0, by simp⟩
  | cons p ps ih =>
    obtain ⟨q, hq, hq0, hq1⟩ :=
      normPairDist_bounds p.1 p.2 (h p (List.mem_cons_self p ps))
    obtain ⟨t, ht, ht0, ht1⟩ := ih (fun r hr => h r (List.mem_cons_of_mem p hr))
    refine ⟨q + t, ?_, by positivity, ?_⟩
    · simp [sumNormDists, hq, ht]
    · simp only [List.length_cons]
      push_cast
      linarith

theorem diversity_take5 (names : List String) :
    calculateOrthographicDiversity (names.take 5) =
      calculateOrthographicDiversity names := by
  unfold calculateOrthographicDiversity
  rw [List.take_take, Nat.min_self]

theorem diversity_defined (names : List String) (h : ∀ n ∈ names, n ≠ "") :
    ∃ d, calculateOrthographicDiversity names = some d ∧ 0 ≤ d ∧ d ≤ 1 := by
  unfold calculateOrthographicDiversity
  by_cases hp : (allPairs (names.take 5)).length = 0
  · exact ⟨0, by simp [hp], le_refl 0, by norm_num⟩
  · have hpos : ∀ p ∈ allPairs (names.take 5), 0 < max p.1.length p.2.length := by
      intro p hpmem
      obtain ⟨h1, h2⟩ := mem_allPairs hpmem
      have hn1 : p.1 ≠ "" := h p.1 (List.take_subset 5 names h1)
      exact lt_of_lt_of_le (strLength_pos hn1) (le_max_left _ _)
    obtain ⟨t, ht, ht0, ht1⟩ := sumNormDists_bounds (allPairs (names.take 5)) hpos
    refine ⟨t / ((allPairs (names.take 5)).length : ℚ), ?_, ?_, ?_⟩
    · simp [hp, ht]
    · positivity
    · rw [div_le_one (by exact_mod_cast Nat.pos_of_ne_zero hp)]
      exact ht1

/-! Helper lemmas about the phonetic index. -/

theorem firstOcc_snoc (l : List String) (k : String) :
    firstOccurrences (l ++ [k]) =
      if k ∈ firstOccurrences l then firstOccurrences l
      else firstOccurrences l ++ [k] := by
  unfold firstOccurrences
  rw [List.foldl_append]
  rfl

theorem mem_firstOccurrences {l : List String} {x : String} :
    x ∈ firstOccurrences l ↔ x ∈ l := by
  induction l using List.reverseRecOn with
  | nil => simp [firstOccurrences]
  | append_singleton l k ih =>
    rw [firstOcc_snoc]
    by_cases hk : k ∈ firstOccurrences l
    · rw [if_pos hk]
      simp only [List.mem_append, List.mem_singleton, ih]
      constructor
      · exact Or.inl
      · rintro (h | h)
        · exact h
        · subst h
          exact ih.mp hk
    · rw [if_neg hk]
      simp [ih]

theorem firstOccurrences_nodup (l : List String) :
    (firstOccurrences l).Nodup := by
  induction l using List.reverseRecOn with
  | nil => simp [firstOccurrences]
  | append_singleton l k ih =>
    rw [firstOcc_snoc]
    by_cases hk : k ∈ firstOccurrences l
    · rw [if_pos hk]; exact ih
    · rw [if_neg hk]
      simp [List.nodup_append, ih, hk]

theorem insertBucket_keys (k : String) (e : Entry)
    (m : List (String × List Entry)) :
    (insertBucket k e m).map Prod.fst =
      if k ∈ m.map Prod.fst then m.map Prod.fst
      else m.map Prod.fst ++ [k] := by
  induction m with
  | nil => simp [insertBucket]
  | cons p m ih =>
    rcases p with ⟨q, g⟩
    by_cases hqk : q = k
    · subst hqk
      simp [insertBucket]
    · have hne : k = q ↔ False := by
        constructor
        · exact fun h => hqk h.symm
        · exact False.elim
      by_cases hk : k ∈ m.map Prod.fst
      · simp [insertBucket, hqk, ih, hk, hne]
      · simp [insertBucket, hqk, ih, hk, hne]

theorem insertBucket_mem (k : String) (e : Entry) :
    ∀ (m : List (String × List Entry)), (m.map Prod.fst).Nodup →
    ∀ p ∈ insertBucket k e m,
    (p ∈ m ∧ p.1 ≠ k) ∨ (∃ g, (k, g) ∈ m ∧ p = (k, g ++ [e])) ∨
      (p = (k, [e]) ∧ k ∉ m.map Prod.fst) := by
  intro m
  induction m with
  | nil =>
    intro _ p hp
    simp only [insertBucket, List.mem_singleton] at hp
    exact Or.inr (Or.inr ⟨hp, by simp⟩)
  | cons q0 m ih =>
    intro hnd p hp
    rcases q0 with ⟨q, g⟩
    simp only [List.map_cons, List.nodup_cons] at hnd
    have hp2 : p ∈ (if q = k then (q, g ++ [e]) :: m
        else (q, g) :: insertBucket k e m) := hp
    by_cases hqk : q = k
    · rw [if_pos hqk] at hp2
      subst hqk
      rcases List.mem_cons.mp hp2 with hp3 | hp3
      · exact Or.inr (Or.inl ⟨g, List.mem_cons_self _ _, hp3⟩)
      · refine Or.inl ⟨List.mem_cons_of_mem _ hp3, fun hk => hnd.1 ?_⟩
        rw [← hk]
        exact List.mem_map_of_mem Prod.fst hp3
    · rw [if_neg hqk] at hp2
      rcases List.mem_cons.mp hp2 with hp3 | hp3
      · refine Or.inl ⟨List.mem_cons.mpr (Or.inl hp3), ?_⟩
        rw [hp3]
        exact fun h => hqk h
      · rcases ih hnd.2 p hp3 with h | h | h
        · exact Or.inl ⟨List.mem_cons_of_mem _ h.1, h.2⟩
        · obtain ⟨g2, hg2, hpeq⟩ := h
          exact Or.inr (Or.inl ⟨g2, List.mem_cons_of_mem _ hg2, hpeq⟩)
        · refine Or.inr (Or.inr ⟨h.1, ?_⟩)
          simp only [List.map_cons, List.mem_cons]
          exact fun hc => hc.elim (fun hc2 => hqk hc2.symm) h.2

theorem phoneticMap_invariant (enc : String → String × String) :
    ∀ (es done : List Entry) (m : List (String × List Entry)),
      (∀ p ∈ m, p.2 = done.filter (fun x => decide (phoneticKey enc x.name = p.1))) →
      m.map Prod.fst = firstOccurrences (done.map (fun x => phoneticKey enc x.name)) →
      (∀ p ∈ es.foldl (fun m e => insertBucket (phoneticKey enc e.name) e m) m,
        p.2 = (done ++ es).filter (fun x => decide (phoneticKey enc x.name = p.1))) ∧
      (es.foldl (fun m e => insertBucket (phoneticKey enc e.name) e m) m).map Prod.fst =
        firstOccurrences ((done ++ es).map (fun x => phoneticKey enc x.name)) := by
  intro es
  induction es with
  | nil =>
    intro done m hbuckets hkeys
    simp only [List.foldl_nil, List.append_nil]
    exact ⟨hbuckets, hkeys⟩
  | cons e es ih =>
    intro done m hbuckets hkeys
    have hnd : (m.map Prod.fst).Nodup := by
      rw [hkeys]; exact firstOccurrences_nodup _
    have hstep1 : ∀ p ∈ insertBucket (phoneticKey enc e.name) e m,
        p.2 = (done ++ [e]).filter
          (fun x => decide (phoneticKey enc x.name = p.1)) := by
      intro p hp
      rcases insertBucket_mem (phoneticKey enc e.name) e m hnd p hp with h | h | h
      · rw [List.filter_append, hbuckets p h.1]
        have : decide (phoneticKey enc e.name = p.1) = false := by
          simp only [decide_eq_false_iff_not]
          exact fun hc => h.2 hc.symm
        simp [this]
      · obtain ⟨g, hg, hpeq⟩ := h
        rw [hpeq, List.filter_append]
        have hgval := hbuckets (phoneticKey enc e.name, g) hg
        simp only at hgval
        simp [← hgval]
      · rw [h.1, List.filter_append]
        have hdone : done.filter
            (fun x => decide (phoneticKey enc x.name = phoneticKey enc e.name)) = [] := by
          rw [List.filter_eq_nil_iff]
          intro x hx
          simp only [decide_eq_true_eq]
          intro hc
          apply h.2
          rw [hkeys]
          exact mem_firstOccurrences.mpr (hc ▸ List.mem_map_of_mem _ hx)
        simp only at hdone ⊢
        simp [hdone]
    have hstep2 : (insertBucket (phoneticKey enc e.name) e m).map Prod.fst =
        firstOccurrences ((done ++ [e]).map (fun x => phoneticKey enc x.name)) := by
      rw [insertBucket_keys, List.map_append, List.map_singleton, firstOcc_snoc,
        hkeys]
    have hrest := ih (done ++ [e]) (insertBucket (phoneticKey enc e.name) e m)
      hstep1 hstep2
    rw [List.foldl_cons, show done ++ e :: es = (done ++ [e]) ++ es from by simp]
    exact hrest

theorem phoneticMap_spec (enc : String → String × String) (entries : List Entry) :
    (∀ p ∈ phoneticMap enc entries,
      p.2 = entries.filter (fun x => decide (phoneticKey enc x.name = p.1))) ∧
    (phoneticMap enc entries).map Prod.fst =
      firstOccurrences (entries.map (fun x => phoneticKey enc x.name)) := by
  have h := phoneticMap_invariant enc entries [] []
    (by intro p hp; cases hp) (by rfl)
  simpa [phoneticMap] using h

theorem phoneticMap_keys_nodup (enc : String → String × String)
    (entries : List Entry) :
    ((phoneticMap enc entries).map Prod.fst).Nodup := by
  rw [(phoneticMap_spec enc entries).2]
  exact firstOccurrences_nodup _

theorem phoneticMap_pairwise_disjoint (enc : String → String × String)
    (entries : List Entry) :
    (phoneticMap enc entries).Pairwise (fun p q => ∀ e ∈ p.2, e ∉ q.2) := by
  have hkeys : (phoneticMap enc entries).Pairwise (fun p q => p.1 ≠ q.1) :=
    List.pairwise_map.mp (phoneticMap_keys_nodup enc entries)
  refine List.Pairwise.imp_of_mem ?_ hkeys
  intro p q hpm hqm hne e hep heq
  have h1 := (phoneticMap_spec enc entries).1 p hpm
  have h2 := (phoneticMap_spec enc entries).1 q hqm
  rw [h1] at hep
  rw [h2] at heq
  have k1 : phoneticKey enc e.name = p.1 := by
    have := List.of_mem_filter hep
    simpa using this
  have k2 : phoneticKey enc e.name = q.1 := by
    have := List.of_mem_filter heq
    simpa using this
  exact hne (k1 ▸ k2)

/-! Helper lemmas about cluster construction and ranking. -/

theorem clusters_eq (m : List (String × List Entry)) :
    clusters m = (m.filter (fun p => decide (1 < p.2.length))).map
      (fun p => mkCluster p.1 p.2) := by
  induction m with
  | nil => rfl
  | cons p m ih =>
    rcases p with ⟨c, g⟩
    by_cases h : 1 < g.length
    · simp [clusters, h, ih]
    · simp [clusters, h, ih]

theorem rank_trans_aux : ∀ a b c : Cluster,
    decide (scoreKey b ≤ scoreKey a) = true →
    decide (scoreKey c ≤ scoreKey b) = true →
    decide (scoreKey c ≤ scoreKey a) = true := by
  intro a b c h1 h2
  simp only [decide_eq_true_eq] at h1 h2 ⊢
  exact le_trans h2 h1

theorem rank_total_aux : ∀ a b : Cluster,
    (decide (scoreKey b ≤ scoreKey a) || decide (scoreKey a ≤ scoreKey b)) = true := by
  intro a b
  simp only [Bool.or_eq_true, decide_eq_true_eq]
  exact le_total (scoreKey b) (scoreKey a)

/-! Helper lemmas about the complexity scorer. -/

theorem complexity_nonneg (jw : String → String → ℚ)
    (hjw : ∀ a b, jw a b ≤ 1) (name : String) :
    0 ≤ calculateComplexity jw name := by
  have h2 : (0 : ℚ) ≤ lengthFactor name := by
    unfold lengthFactor
    exact le_min (by norm_num) (by positivity)
  have h3 : (0 : ℚ) ≤ syllableFactor name := by
    unfold syllableFactor
    positivity
  have h4 : (0 : ℚ) ≤ nonStandardFactor name := by
    unfold nonStandardFactor
    positivity
  have h5 : (0 : ℚ) ≤ orthoNeighborFactor jw name := by
    unfold orthoNeighborFactor
    linarith [hjw name "standard"]
  unfold calculateComplexity phoneticDensityFactor
  linarith

theorem score_characterization (g : List Entry)
    (hmax : 0 < maxNat (g.map (·.value)))
    (hnames : ∀ e ∈ g, e.name ≠ "") :
    ∃ d, calculateOrthographicDiversity (g.map (·.name)) = some d ∧
      0 ≤ d ∧ d ≤ 1 ∧
      calculateConfusionScore g =
        some (min 1 ((g.length : ℚ) / 5) * 0.3 +
          min 1 (maxQ (g.map (·.complexity))) * 0.4 +
          (1 - (minNat (g.map (·.value)) : ℚ) / (maxNat (g.map (·.value)) : ℚ)) * 0.2 +
          d * 0.1) := by
  obtain ⟨d, hd, hd0, hd1⟩ := diversity_defined (g.map (·.name)) (by
    intro n hn
    obtain ⟨e, he, hne⟩ := List.mem_map.mp hn
    exact hne ▸ hnames e he)
  refine ⟨d, hd, hd0, hd1, ?_⟩
  unfold calculateConfusionScore
  rw [if_neg (Nat.pos_iff_ne_zero.mp hmax)]
  rw [hd]
  simp [List.length_map]

/-! Claim theorems. -/

/-- C1: the claim states that on a cluster whose member values are all 0 the
scorer applies the documented fallback `valueSpread = 0`, so the returned
confusion score is a defined number.  The code has no such fallback: on the
2-member group with values `[0, 0]` the division `min/max = 0/0` produces
NaN (modelled by `none`), which propagates into the returned score. -/
theorem confusionScore_zeroValues_isNaN :
    calculateConfusionScore zeroGroup = none := rfl

/-- C3: for every name the complexity is non-negative, and on the empty
string it equals `1 - JaroWinkler("", "standard")`: the length, syllable and
non-standard-character factors are all 0 there and the reserved
phonetic-density term contributes 0. -/
theorem complexity_nonneg_and_empty (jw : String → String → ℚ)
    (hjw : ∀ a b, jw a b ≤ 1) :
    (∀ name, 0 ≤ calculateComplexity jw name) ∧
    calculateComplexity jw "" = 1 - jw "" "standard" ∧
    lengthFactor "" = 0 ∧ syllableFactor "" = 0 ∧ nonStandardFactor "" = 0 ∧
    phoneticDensityFactor = 0 := by
  have h1 : lengthFactor "" = 0 := by
    unfold lengthFactor
    rw [show ("" : String).length = 0 from rfl]
    norm_num
  have h2 : syllableFactor "" = 0 := by
    unfold syllableFactor
    rw [show countVowelRuns false ("" : String).data = 0 from rfl]
    norm_num
  have h3 : nonStandardFactor "" = 0 := by
    unfold nonStandardFactor
    rw [show (("" : String).data.filter (fun c => !(isStandardChar c))) = []
      from rfl]
    norm_num
  refine ⟨complexity_nonneg jw hjw, ?_, h1, h2, h3, rfl⟩
  unfold calculateComplexity orthoNeighborFactor phoneticDensityFactor
  rw [h1, h2, h3]
  ring

/-- Witness for C3 at the constant-zero Jaro-Winkler stand-in. -/
theorem complexity_nonneg_and_empty_witness :
    (∀ name, 0 ≤ calculateComplexity jwConst name) ∧
    calculateComplexity jwConst "" = 1 - jwConst "" "standard" ∧
    lengthFactor "" = 0 ∧ syllableFactor "" = 0 ∧ nonStandardFactor "" = 0 ∧
    phoneticDensityFactor = 0 :=
  complexity_nonneg_and_empty jwConst (fun a b => by norm_num [jwConst])

/-- C4: the diversity estimator returns 0 on the empty list and on singleton
lists, returns the normalized Levenshtein distance on a two-element list, and
depends only on the first 5 names in the given order. -/
theorem diversity_base_cases :
    calculateOrthographicDiversity [] = some 0 ∧
    (∀ x, calculateOrthographicDiversity [x] = some 0) ∧
    (∀ a b, 0 < max a.length b.length →
      calculateOrthographicDiversity [a, b] =
        some ((levDist a b : ℚ) / (max a.length b.length : ℚ))) ∧
    (∀ names, calculateOrthographicDiversity (names.take 5) =
      calculateOrthographicDiversity names) := by
  refine ⟨rfl, fun x => rfl, ?_, diversity_take5⟩
  intro a b h
  unfold calculateOrthographicDiversity
  dsimp only
  rw [show allPairs ([a, b].take 5) = [(a, b)] from rfl]
  have hnp : normPairDist a b =
      some ((levDist a b : ℚ) / (max a.length b.length : ℚ)) := by
    unfold normPairDist
    rw [if_neg (Nat.pos_iff_ne_zero.mp h)]
  simp [sumNormDists, hnp]

/-- Witness for C4 at the pair `"ab"`, `"b"`. -/
theorem diversity_base_cases_witness :
    0 < max ("ab" : String).length ("b" : String).length ∧
    calculateOrthographicDiversity ["ab", "b"] =
      some ((levDist "ab" "b" : ℚ) /
        (max ("ab" : String).length ("b" : String).length : ℚ)) :=
  ⟨by decide, diversity_base_cases.2.2.1 "ab" "b" (by decide)⟩

/-- C5: every cluster produced by the builder has at least 2 members, and the
cluster list is exactly the image of the buckets with more than one member,
in bucket order — buckets with fewer than 2 members produce no cluster. -/
theorem clusters_min_members (m : List (String × List Entry)) :
    (∀ c ∈ clusters m, 2 ≤ c.entries.length) ∧
    clusters m = (m.filter (fun p => decide (1 < p.2.length))).map
      (fun p => mkCluster p.1 p.2) := by
  refine ⟨?_, clusters_eq m⟩
  intro c hc
  rw [clusters_eq m] at hc
  obtain ⟨p, hpmem, hceq⟩ := List.mem_map.mp hc
  have hlen := List.of_mem_filter hpmem
  simp only [decide_eq_true_eq] at hlen
  rw [← hceq]
  exact hlen

/-- Witness for C5 at a bucket map with one singleton and one pair bucket. -/
theorem clusters_min_members_witness :
    mkCluster "ab|" sampleGroup ∈ clusters sampleBuckets ∧
    2 ≤ (mkCluster "ab|" sampleGroup).entries.length := by
  have hmem : mkCluster "ab|" sampleGroup ∈ clusters sampleBuckets := by
    rw [show clusters sampleBuckets = [mkCluster "ab|" sampleGroup] from rfl]
    exact List.mem_singleton.mpr rfl
  exact ⟨hmem, (clusters_min_members sampleBuckets).1 _ hmem⟩

/-- C2: for a member sequence of length at least 2 with non-empty names,
non-negative integer values and a positive maximum value, whose complexities
were produced by the complexity scorer (with a Jaro-Winkler collaborator
within its contract), the confusion score equals
`0.30*min(1, count/5) + 0.40*min(1, max complexity) +
0.20*(1 - min(values)/max(values)) + 0.10*diversity(names)`,
and the result lies in `[0, 1]`. -/
theorem confusionScore_formula_range (jw : String → String → ℚ)
    (g : List Entry)
    (hlen : 2 ≤ g.length)
    (hnames : ∀ e ∈ g, e.name ≠ "")
    (hmax : 0 < maxNat (g.map (·.value)))
    (hcompl : ∀ e ∈ g, e.complexity = calculateComplexity jw e.name)
    (hjw : ∀ a b, jw a b ≤ 1) :
    ∃ s d, calculateOrthographicDiversity (g.map (·.name)) = some d ∧
      calculateConfusionScore g = some s ∧
      s = 0.3 * min 1 ((g.length : ℚ) / 5) +
        0.4 * min 1 (maxQ (g.map (·.complexity))) +
        0.2 * (1 - (minNat (g.map (·.value)) : ℚ) /
          (maxNat (g.map (·.value)) : ℚ)) +
        0.1 * d ∧
      0 ≤ s ∧ s ≤ 1 := by
  obtain ⟨d, hd, hd0, hd1, hscore⟩ := score_characterization g hmax hnames
  have hg : g ≠ [] := by
    intro hnil
    rw [hnil] at hlen
    simp at hlen
  have hgm : g.map (·.complexity) ≠ [] := by
    simpa [List.map_eq_nil_iff] using hg
  have hgv : g.map (·.value) ≠ [] := by
    simpa [List.map_eq_nil_iff] using hg
  have ha0 : (0 : ℚ) ≤ min 1 ((g.length : ℚ) / 5) :=
    le_min (by norm_num) (by positivity)
  have ha1 : min 1 ((g.length : ℚ) / 5) ≤ 1 := min_le_left _ _
  have hb0 : (0 : ℚ) ≤ min 1 (maxQ (g.map (·.complexity))) := by
    refine le_min (by norm_num) ?_
    obtain ⟨e, he, hee⟩ := List.mem_map.mp (maxQ_mem hgm)
    rw [← hee, hcompl e he]
    exact complexity_nonneg jw hjw e.name
  have hb1 : min 1 (maxQ (g.map (·.complexity))) ≤ 1 := min_le_left _ _
  have hmaxpos : (0 : ℚ) < (maxNat (g.map (·.value)) : ℚ) := by
    exact_mod_cast hmax
  have hc0 : (0 : ℚ) ≤ 1 - (minNat (g.map (·.value)) : ℚ) /
      (maxNat (g.map (·.value)) : ℚ) := by
    have hle : (minNat (g.map (·.value)) : ℚ) / (maxNat (g.map (·.value)) : ℚ) ≤ 1 := by
      rw [div_le_one hmaxpos]
      exact_mod_cast minNat_le_maxNat hgv
    linarith
  have hc1 : 1 - (minNat (g.map (·.value)) : ℚ) /
      (maxNat (g.map (·.value)) : ℚ) ≤ 1 := by
    have hge : (0 : ℚ) ≤ (minNat (g.map (·.value)) : ℚ) /
        (maxNat (g.map (·.value)) : ℚ) := by positivity
    linarith
  refine ⟨_, d, hd, hscore, by ring, ?_, ?_⟩
  · have h03 : (0 : ℚ) ≤ 0.3 := by norm_num
    positivity
  · nlinarith [ha0, ha1, hb0, hb1, hc0, hc1, hd0, hd1]

/-- Witness for C2 at the 2-member sample group under the constant-zero
Jaro-Winkler stand-in. -/
theorem confusionScore_formula_range_witness :
    ∃ s d, calculateOrthographicDiversity (sampleGroup.map (·.name)) = some d ∧
      calculateConfusionScore sampleGroup = some s ∧
      s = 0.3 * min 1 ((sampleGroup.length : ℚ) / 5) +
        0.4 * min 1 (maxQ (sampleGroup.map (·.complexity))) +
        0.2 * (1 - (minNat (sampleGroup.map (·.value)) : ℚ) /
          (maxNat (sampleGroup.map (·.value)) : ℚ)) +
        0.1 * d ∧
      0 ≤ s ∧ s ≤ 1 :=
  confusionScore_formula_range jwConst sampleGroup (by decide) (by decide)
    (by decide) (by intro e he; fin_cases he <;> rfl)
    (fun a b => by norm_num [jwConst])

/-- C7: the confusion score is invariant under any permutation of the
members that leaves the first-5-name prefix (the diversity sample)
unchanged: group size, maximum complexity, minimum and maximum value and the
sampled diversity prefix are all preserved. -/
theorem confusionScore_perm_invariant (g₁ g₂ : List Entry)
    (hperm : g₁.Perm g₂)
    (hpre : (g₁.map (·.name)).take 5 = (g₂.map (·.name)).take 5) :
    calculateConfusionScore g₁ = calculateConfusionScore g₂ := by
  have hlen : g₁.length = g₂.length := hperm.length_eq
  have hmaxq : maxQ (g₁.map (·.complexity)) = maxQ (g₂.map (·.complexity)) :=
    maxQ_perm (hperm.map _)
  have hmaxv : maxNat (g₁.map (·.value)) = maxNat (g₂.map (·.value)) :=
    maxNat_perm (hperm.map _)
  have hminv : minNat (g₁.map (·.value)) = minNat (g₂.map (·.value)) :=
    minNat_perm (hperm.map _)
  have hdiv : calculateOrthographicDiversity (g₁.map (·.name)) =
      calculateOrthographicDiversity (g₂.map (·.name)) := by
    rw [← diversity_take5 (g₁.map (·.name)), hpre, diversity_take5]
  unfold calculateConfusionScore
  dsimp only
  rw [List.length_map, List.length_map, hlen, hmaxq, hmaxv, hminv, hdiv]

/-- Witness for C7: the 7-member sample group and its reordering that swaps
the two members beyond the first-5 prefix receive the same score. -/
theorem confusionScore_perm_invariant_witness :
    calculateConfusionScore permGroupA = calculateConfusionScore permGroupB :=
  confusionScore_perm_invariant permGroupA permGroupB
    (List.Perm.append_left
      [mkEntry "a" 1, mkEntry "b" 2, mkEntry "c" 3, mkEntry "d" 4, mkEntry "e" 5]
      (List.Perm.swap (mkEntry "g" 7) (mkEntry "f" 6) []))
    rfl

/-- C6: the ranking sorts clusters by confusion score descending, and it is
stable: the elements carrying any fixed score appear in the ranked output in
exactly the order they had in the builder's output.  The hypothesis restricts
to defined (non-NaN) scores, the domain on which the JavaScript comparator is
consistent. -/
theorem rank_sorted_stable (cs : List Cluster)
    (hdef : ∀ c ∈ cs, c.confusionScore ≠ none) :
    (rank cs).Pairwise (fun a b => scoreKey b ≤ scoreKey a) ∧
    (rank cs).Perm cs ∧
    (∀ q : ℚ, (rank cs).filter (fun c => decide (scoreKey c = q)) =
      cs.filter (fun c => decide (scoreKey c = q))) := by
  refine ⟨?_, List.mergeSort_perm cs _, ?_⟩
  · exact (List.sorted_mergeSort rank_trans_aux rank_total_aux cs).imp
      (fun h => of_decide_eq_true h)
  · intro q
    have hpw : (cs.filter (fun c => decide (scoreKey c = q))).Pairwise
        (fun a b => decide (scoreKey b ≤ scoreKey a) = true) := by
      apply List.pairwise_of_forall_mem_list
      intro a hamem b hbmem
      have h1 := List.of_mem_filter hamem
      have h2 := List.of_mem_filter hbmem
      simp only [decide_eq_true_eq] at h1 h2
      simp [h1, h2]
    have hsub : (cs.filter (fun c => decide (scoreKey c = q))).Sublist (rank cs) :=
      List.sublist_mergeSort rank_trans_aux rank_total_aux hpw
        (List.filter_sublist cs)
    have hsub2 : (cs.filter (fun c => decide (scoreKey c = q))).Sublist
        ((rank cs).filter (fun c => decide (scoreKey c = q))) := by
      have hstep := List.Sublist.filter (fun c => decide (scoreKey c = q)) hsub
      have hself : (cs.filter (fun c => decide (scoreKey c = q))).filter
          (fun c => decide (scoreKey c = q)) =
          cs.filter (fun c => decide (scoreKey c = q)) :=
        List.filter_eq_self.mpr
          (fun a ha => @List.of_mem_filter _ (fun c => decide (scoreKey c = q)) _ _ ha)
      rwa [hself] at hstep
    have hlen : ((rank cs).filter (fun c => decide (scoreKey c = q))).length =
        (cs.filter (fun c => decide (scoreKey c = q))).length :=
      (List.Perm.filter _ (List.mergeSort_perm cs _)).length_eq
    exact (hsub2.eq_of_length hlen.symm).symm

/-- Witness for C6 at a one-cluster list with a defined score. -/
theorem rank_sorted_stable_witness :
    (rank [mkCluster "ab|" sampleGroup]).Pairwise
      (fun a b => scoreKey b ≤ scoreKey a) ∧
    (rank [mkCluster "ab|" sampleGroup]).Perm [mkCluster "ab|" sampleGroup] ∧
    (∀ q : ℚ, (rank [mkCluster "ab|" sampleGroup]).filter
        (fun c => decide (scoreKey c = q)) =
      [mkCluster "ab|" sampleGroup].filter (fun c => decide (scoreKey c = q))) :=
  rank_sorted_stable [mkCluster "ab|" sampleGroup] (by
    intro c hc
    rw [List.mem_singleton] at hc
    subst hc
    obtain ⟨d, hd, hd0, hd1, hs⟩ :=
      score_characterization sampleGroup (by decide) (by decide)
    show calculateConfusionScore sampleGroup ≠ none
    rw [hs]
    simp)

/-- C8: the indexer keys each record by the primary code, the fixed
separator and the secondary code — the separator is present even when the
secondary code is empty — each bucket holds, in input order, exactly the
records with that key, and the bucket keys appear in first-occurrence
order. -/
theorem phoneticIndex_spec (enc : String → String × String)
    (entries : List Entry) :
    (∀ n, phoneticKey enc n = (enc n).1 ++ "|" ++ (enc n).2) ∧
    (∀ p ∈ phoneticMap enc entries,
      p.2 = entries.filter (fun x => decide (phoneticKey enc x.name = p.1))) ∧
    (phoneticMap enc entries).map Prod.fst =
      firstOccurrences (entries.map (fun x => phoneticKey enc x.name)) :=
  ⟨fun _ => rfl, (phoneticMap_spec enc entries).1,
    (phoneticMap_spec enc entries).2⟩

/-- Witness for C8 at the sample records under the identity-like encoder. -/
theorem phoneticIndex_spec_witness :
    phoneticKey encId "ab" = "ab" ++ "|" ++ "" ∧
    [mkEntry "ab" 1, mkEntry "ab" 3] =
      sampleEntries.filter
        (fun x => decide (phoneticKey encId x.name = "ab|")) := by
  have hmap : phoneticMap encId sampleEntries =
      [("ab|", [mkEntry "ab" 1, mkEntry "ab" 3]),
        ("ad|", [mkEntry "ad" 2])] := rfl
  refine ⟨(phoneticIndex_spec encId sampleEntries).1 "ab", ?_⟩
  exact (phoneticIndex_spec encId sampleEntries).2.1
    ("ab|", [mkEntry "ab" 1, mkEntry "ab" 3])
    (by rw [hmap]; exact List.mem_cons_self _ _)

/-- C9 counterexample: the claim says every complexity sub-factor other than
`nonStandardFactor` lies in [0,1], naming `syllableFactor <= 1` explicitly.
That is false: `syllableFactor` is not clamped, and on the 12-letter name
"abababababab" it counts 6 vowel runs and returns 6/5 > 1. -/
theorem syllableFactor_exceeds_one :
    ¬ (syllableFactor "abababababab" ≤ 1) := by
  unfold syllableFactor
  rw [show countVowelRuns false ("abababababab" : String).data = 6 from rfl]
  norm_num

/-- C9 (amended): `lengthFactor` lies in [0,1], and `orthoNeighborFactor`
lies in [0,1] for a Jaro-Winkler collaborator within its [0,1] contract;
`syllableFactor` and `nonStandardFactor` are non-negative but unclamped and
may exceed 1. -/
theorem complexity_factor_bounds (jw : String → String → ℚ)
    (hjw : ∀ a b, 0 ≤ jw a b ∧ jw a b ≤ 1) (name : String) :
    (0 ≤ lengthFactor name ∧ lengthFactor name ≤ 1) ∧
    0 ≤ syllableFactor name ∧ 0 ≤ nonStandardFactor name ∧
    (0 ≤ orthoNeighborFactor jw name ∧ orthoNeighborFactor jw name ≤ 1) := by
  refine ⟨?_, ?_, ?_, ?_⟩
  · unfold lengthFactor
    exact ⟨le_min (by norm_num) (by positivity), min_le_left _ _⟩
  · unfold syllableFactor
    positivity
  · unfold nonStandardFactor
    positivity
  · unfold orthoNeighborFactor
    obtain ⟨h0, h1⟩ := hjw name "standard"
    exact ⟨by linarith, by linarith⟩

/-- Witness for C9 at the constant-zero Jaro-Winkler stand-in. -/
theorem complexity_factor_bounds_witness :
    (0 ≤ lengthFactor "x" ∧ lengthFactor "x" ≤ 1) ∧
    0 ≤ syllableFactor "x" ∧ 0 ≤ nonStandardFactor "x" ∧
    (0 ≤ orthoNeighborFactor jwConst "x" ∧ orthoNeighborFactor jwConst "x" ≤ 1) :=
  complexity_factor_bounds jwConst (fun a b => by norm_num [jwConst]) "x"

/-- C10: every input record lies in exactly one phonetic bucket (the one for
its key); hence the member sequences of distinct clusters are disjoint, and —
for pairwise-distinct input records — no record appears twice within one
cluster. -/
theorem clusters_partition (enc : String → String × String)
    (entries : List Entry) :
    (∀ e ∈ entries, ∃! p : String × List Entry,
      p ∈ phoneticMap enc entries ∧ e ∈ p.2) ∧
    (clusters (phoneticMap enc entries)).Pairwise
      (fun c₁ c₂ => ∀ e ∈ c₁.entries, e ∉ c₂.entries) ∧
    (entries.Nodup → ∀ c ∈ clusters (phoneticMap enc entries),
      c.entries.Nodup) := by
  obtain ⟨hbuckets, hkeys⟩ := phoneticMap_spec enc entries
  refine ⟨?_, ?_, ?_⟩
  · intro e he
    have hkmem : phoneticKey enc e.name ∈
        (phoneticMap enc entries).map Prod.fst := by
      rw [hkeys]
      exact mem_firstOccurrences.mpr (List.mem_map_of_mem _ he)
    obtain ⟨p, hpmem, hpfst⟩ := List.mem_map.mp hkmem
    refine ⟨p, ⟨hpmem, ?_⟩, ?_⟩
    · rw [hbuckets p hpmem]
      exact List.mem_filter.mpr ⟨he, by simp [hpfst]⟩
    · rintro q ⟨hqmem, hqe⟩
      rw [hbuckets q hqmem] at hqe
      have hq1 : phoneticKey enc e.name = q.1 := by
        have hqf := List.of_mem_filter hqe
        simpa using hqf
      have hpw : (phoneticMap enc entries).Pairwise (fun x y => x.1 ≠ y.1) :=
        List.pairwise_map.mp (phoneticMap_keys_nodup enc entries)
      by_cases hqp : q = p
      · exact hqp
      · have hneq := hpw.forall (fun x y h => h.symm) hqmem hpmem hqp
        exact absurd (hq1.symm.trans hpfst.symm) hneq
  · rw [clusters_eq, List.pairwise_map]
    exact List.Pairwise.filter _ (phoneticMap_pairwise_disjoint enc entries)
  · intro hnd c hc
    rw [clusters_eq] at hc
    obtain ⟨p, hpmem, hceq⟩ := List.mem_map.mp hc
    have hpm : p ∈ phoneticMap enc entries := List.mem_of_mem_filter hpmem
    rw [← hceq]
    show p.2.Nodup
    rw [hbuckets p hpm]
    exact List.Nodup.filter _ hnd

/-- Witness for C10 at the sample records under the identity-like encoder. -/
theorem clusters_partition_witness :
    (∃! p : String × List Entry,
      p ∈ phoneticMap encId sampleEntries ∧ mkEntry "ab" 1 ∈ p.2) ∧
    (∀ c ∈ clusters (phoneticMap encId sampleEntries), c.entries.Nodup) :=
  ⟨(clusters_partition encId sampleEntries).1 (mkEntry "ab" 1)
      (List.mem_cons_self _ _),
    (clusters_partition encId sampleEntries).2.2 (by decide)⟩

end Confusion
